import Mathlib

/-!
Verification of the VIGRA grid-graph neighborhood table generator
(`include/vigra/multi_gridgraph_neighborhoods.hxx`).

The C++ code is shallowly embedded: the fixed-length `TinyVector` Shape
becomes a `List Int`, the recursive template structs `BorderTypeImpl`,
`MakeDirectArrayNeighborhood`, `MakeIndirectArrayNeighborhood` become
structural recursions over the dimension level, and the table-building
functions `makeArrayNeighborhood` / `makeArraySubNeighborhood` become
pure functions; the output-container reuse semantics (resize / clear /
push_back) is made explicit where it matters.
-/

namespace vigra

/-- A lattice point, offset, extent or stride vector of the N-dimensional
grid: the embedding of the VIGRA `Shape` (a `TinyVector<MultiArrayIndex, N>`). -/
abbrev Shape := List Int

/-- A default-initialized `Shape`: the all-zero vector of length N. -/
def zeroVec (N : Nat) : Shape := List.replicate N 0

/-- `dot(a, b)` on shape vectors: the sum of componentwise products. -/
def dot : Shape → Shape → Int
  | [], _ => 0
  | _ :: _, [] => 0
  | a :: as, b :: bs => a * b + dot as bs

/-- The natural strides `cumprod(Shape(3)) / 3 = (1, 3, 9, ..., 3^(N-1))`
used by `makeArrayNeighborhood` to order the neighbor offsets. -/
def strides3 (N : Nat) : Shape := (List.range N).map (fun d => (3 : Int) ^ d)

/-- `BorderTypeImpl<N, DIMENSION>::exec(point, shape)`: accumulates the border
bits of dimensions `0 .. DIMENSION`; bit `2*d` is set when `point[d] == 0` and
bit `2*d+1` when `point[d] == shape[d]-1`. -/
def borderTypeImpl : Nat → Shape → Shape → Nat
  | 0, p, s =>
      (if p.getD 0 0 = 0 then 1 else 0) |||
      (if p.getD 0 0 = s.getD 0 0 - 1 then 2 else 0)
  | D+1, p, s =>
      (borderTypeImpl D p s |||
       (if p.getD (D+1) 0 = 0 then 1 <<< (2*(D+1)) else 0)) |||
      (if p.getD (D+1) 0 = s.getD (D+1) 0 - 1 then 2 <<< (2*(D+1)) else 0)

/-- The border code of a point in a region of shape `s`:
`BorderTypeImpl<N, N-1>::exec`. -/
def borderType (N : Nat) (p s : Shape) : Nat := borderTypeImpl (N-1) p s

inductive NeighborhoodType where
  | DirectNeighborhood
  | IndirectNeighborhood

/-- `MakeDirectArrayNeighborhood<Level>::offsets(a)`: emits the offset `-1`
along dimension `Level`, then recurses to the lower levels, then emits `+1`
along dimension `Level`.  Each emitted point starts from a default (zero)
`Shape` of length N. -/
def directOffsets (N : Nat) : Nat → List Shape
  | 0 => [(zeroVec N).set 0 (-1), (zeroVec N).set 0 1]
  | L+1 =>
      (zeroVec N).set (L+1) (-1) ::
      (directOffsets N L ++ [(zeroVec N).set (L+1) 1])

/-- `MakeDirectArrayNeighborhood<Level>::exists(a, borderType)`: the flag for
the `-1` offset of a level is `(borderType & (1 << 2*Level)) == 0`, the flag
for its `+1` offset is `(borderType & (2 << 2*Level)) == 0`. -/
def directExists : Nat → Nat → List Bool
  | 0, b => [decide (b &&& 1 = 0), decide (b &&& 2 = 0)]
  | L+1, b =>
      decide (b &&& (1 <<< (2*(L+1))) = 0) ::
      (directExists L b ++ [decide (b &&& (2 <<< (2*(L+1))) = 0)])

/-- `MakeIndirectArrayNeighborhood<Level>::offsets(a, point, isCenter)`:
triple recursion over the branches `-1, 0, +1` of dimension `Level`; at level
0 the center point (all zero so far and branch 0) is skipped. -/
def indirectOffsets : Nat → Shape → Bool → List Shape
  | 0, p, isCenter =>
      p.set 0 (-1) :: ((if isCenter then [] else [p.set 0 0]) ++ [p.set 0 1])
  | L+1, p, isCenter =>
      indirectOffsets L (p.set (L+1) (-1)) false ++
      (indirectOffsets L (p.set (L+1) 0) isCenter ++
       indirectOffsets L (p.set (L+1) 1) false)

/-- `MakeIndirectArrayNeighborhood<Level>::markOutside(a)`: pushes `false`
once for every offset combination of the levels `0 .. Level`. -/
def markOutside : Nat → List Bool
  | 0 => [false, false, false]
  | L+1 => markOutside L ++ (markOutside L ++ markOutside L)

/-- `MakeIndirectArrayNeighborhood<Level>::exists(a, borderType, isCenter)`:
each of the `-1` and `+1` branches either recurses normally (border bit
clear) or masks its whole subtree via `markOutside` (border bit set); the `0`
branch always recurses, threading the `isCenter` flag. -/
def indirectExists : Nat → Nat → Bool → List Bool
  | 0, b, isCenter =>
      decide (b &&& 1 = 0) ::
      ((if isCenter then [] else [true]) ++ [decide (b &&& 2 = 0)])
  | L+1, b, isCenter =>
      (if b &&& (1 <<< (2*(L+1))) = 0 then indirectExists L b false else markOutside L) ++
      (indirectExists L b isCenter ++
       (if b &&& (2 <<< (2*(L+1))) = 0 then indirectExists L b false else markOutside L))

/-- The canonical neighbor offset list (`neighborOffsets[0]` built by
`makeArrayNeighborhood`): the chosen enumerator started at level `N-1`. -/
def neighborOffsets0 (N : Nat) : NeighborhoodType → List Shape
  | .DirectNeighborhood => directOffsets N (N-1)
  | .IndirectNeighborhood => indirectOffsets (N-1) (zeroVec N) true

/-- The existence flags for border code `k` (`neighborExists[k]` built by
`makeArrayNeighborhood`). -/
def neighborExists (N : Nat) (nt : NeighborhoodType) (k : Nat) : List Bool :=
  match nt with
  | .DirectNeighborhood => directExists (N-1) k
  | .IndirectNeighborhood => indirectExists (N-1) k true

/-- `neighborCount`: the length of the canonical offset list. -/
def neighborCount (N : Nat) (nt : NeighborhoodType) : Nat :=
  (neighborOffsets0 N nt).length

/-- `causalNeighborExists[k]`: for each `l < neighborCount`, copies
`neighborExists[k][l]` when `dot(neighborOffsets[0][l], strides) < 0`, else
`false` (the C++ resizes the row and then overwrites every slot). -/
def causalNeighborExists (N : Nat) (nt : NeighborhoodType) (k : Nat) : List Bool :=
  (List.range (neighborCount N nt)).map (fun l =>
    if dot ((neighborOffsets0 N nt).getD l []) (strides3 N) < 0
    then (neighborExists N nt k).getD l false
    else false)

/-- `anticausalNeighborExists[k]`: the complementary branch of the same
`stride < 0` test. -/
def anticausalNeighborExists (N : Nat) (nt : NeighborhoodType) (k : Nat) : List Bool :=
  (List.range (neighborCount N nt)).map (fun l =>
    if dot ((neighborOffsets0 N nt).getD l []) (strides3 N) < 0
    then false
    else (neighborExists N nt k).getD l false)

/-- `neighborIndexLookup[k]` as produced by one pass of the `l` loop of
`makeArrayNeighborhood` over an initially empty row: the indices `l` with
`neighborExists[k][l]` true, in ascending order. -/
def neighborIndexLookup (N : Nat) (nt : NeighborhoodType) (k : Nat) : List Nat :=
  (List.range (neighborCount N nt)).filter (fun l =>
    (neighborExists N nt k).getD l false)

/-- `neighborOffsets[k]`: for `k = 0` the canonical list (left untouched by
the `k` loop), otherwise the canonical offsets filtered by existence. -/
def perCodeNeighborOffsets (N : Nat) (nt : NeighborhoodType) (k : Nat) : List Shape :=
  if k = 0 then neighborOffsets0 N nt
  else (List.range (neighborCount N nt)).filterMap (fun l =>
    if (neighborExists N nt k).getD l false
    then some ((neighborOffsets0 N nt).getD l [])
    else none)

/-- One row of `makeArraySubNeighborhood` over an initially empty container:
the flat strides `dot(allNeighborOffsets[l], strides)` of the existing
neighbors, in canonical order. -/
def flatStrides (allNeighborOffsets : List Shape) (existsRow : List Bool)
    (strides : Shape) : List Int :=
  (List.range allNeighborOffsets.length).filterMap (fun l =>
    if existsRow.getD l false
    then some (dot (allNeighborOffsets.getD l []) strides)
    else none)

/-- `FlatStrideTable[k]` for the canonical tables of `(N, nt)` and a given
stride vector. -/
def flatStrideTable (N : Nat) (nt : NeighborhoodType) (strides : Shape)
    (k : Nat) : List Int :=
  flatStrides (neighborOffsets0 N nt) (neighborExists N nt k) strides

/-- The five output containers of `makeArrayNeighborhood`, modelled as the
state they hold before/after a call. -/
structure NeighborhoodTables where
  offsetsTable : List (List Shape)
  existsTable : List (List Bool)
  causalTable : List (List Bool)
  anticausalTable : List (List Bool)
  indexLookupTable : List (List Nat)

/-- Freshly default-constructed (empty) output containers. -/
def emptyTables : NeighborhoodTables :=
  { offsetsTable := [], existsTable := [], causalTable := [],
    anticausalTable := [], indexLookupTable := [] }

/-- `std::vector`-style `resize(n)`: keeps the first `n` elements and pads
with default-constructed elements. -/
def resizeWith {α : Type} (l : List α) (n : Nat) (d : α) : List α :=
  l.take n ++ List.replicate (n - l.length) d

/-- `makeArrayNeighborhood` acting on the output containers `st`.
The offsets rows are cleared before being rebuilt (row 0 at the start, rows
`k > 0` inside the loop), the exists rows are cleared, and the causal /
anticausal rows are resized to `neighborCount` and then overwritten at every
slot — so these four tables do not depend on `st`.  The index-lookup rows are
only `resize`d (which keeps existing content for codes `< size`) and then
appended to by `push_back`. -/
def makeArrayNeighborhood (N : Nat) (nt : NeighborhoodType)
    (st : NeighborhoodTables) : NeighborhoodTables :=
  { offsetsTable := (List.range (1 <<< (2*N))).map (perCodeNeighborOffsets N nt)
    existsTable := (List.range (1 <<< (2*N))).map (neighborExists N nt)
    causalTable := (List.range (1 <<< (2*N))).map (causalNeighborExists N nt)
    anticausalTable := (List.range (1 <<< (2*N))).map (anticausalNeighborExists N nt)
    indexLookupTable := (List.range (1 <<< (2*N))).map (fun k =>
      (resizeWith st.indexLookupTable (1 <<< (2*N)) []).getD k [] ++
      neighborIndexLookup N nt k) }

/-- `makeArraySubNeighborhood` acting on the output container `st`: the rows
are only `resize`d (content kept) and then appended to by `push_back`. -/
def makeArraySubNeighborhood (allNeighborOffsets : List Shape)
    (existsTables : List (List Bool)) (strides : Shape)
    (st : List (List Int)) : List (List Int) :=
  (List.range (1 <<< (2*strides.length))).map (fun k =>
    (resizeWith st (1 <<< (2*strides.length)) []).getD k [] ++
    flatStrides allNeighborOffsets (existsTables.getD k []) strides)

/-- Per-dimension branch admissibility used by the spec's Cartesian-product
description: dimension `d` of offset `off` is compatible with border code `k`
unless the offset is `-1` while bit `2*d` of `k` is set, or the offset is
`+1` while bit `2*d+1` of `k` is set. -/
def offsetOkB (k : Nat) (off : Shape) (d : Nat) : Bool :=
  !(off.getD d 0 == -1 && k.testBit (2*d)) &&
  !(off.getD d 0 == 1 && k.testBit (2*d+1))

/-- Modelled from the spec: the Cartesian-product filter reference for the
existence flags — the flag of the neighbor at canonical index `l` is true iff
for every dimension `d` the branch `offset[l][d]` is not eliminated by the
border code `k`. -/
def existsCartesianFilter (N : Nat) (nt : NeighborhoodType) (k : Nat) : List Bool :=
  (neighborOffsets0 N nt).map (fun off =>
    (List.range N).all (fun d => offsetOkB k off d))

/-- Componentwise negation of a shape vector. -/
def negVec (v : Shape) : Shape := v.map (fun x => -x)

/-- The balanced-ternary value of an offset vector: its dot product with the
natural strides `(1, 3, 9, ...)` extended to the vector's full length. -/
def tdot : Shape → Int
  | [] => 0
  | a :: as => a + 3 * tdot as

/-! ### Basic list helpers -/

theorem getD_set_self : ∀ (l : Shape) (i : Nat) (v : Int), i < l.length →
    (l.set i v).getD i 0 = v := by
  intro l
  induction l with
  | nil => intro i v h; simp at h
  | cons a as ih =>
      intro i v h
      cases i with
      | zero => rfl
      | succ n => simpa using ih n v (by simpa using h)

theorem getD_set_ne : ∀ (l : Shape) (i j : Nat) (v : Int), i ≠ j →
    (l.set i v).getD j 0 = l.getD j 0 := by
  intro l
  induction l with
  | nil => intro i j v _; rfl
  | cons a as ih =>
      intro i j v hij
      cases i with
      | zero =>
          cases j with
          | zero => exact absurd rfl hij
          | succ m => rfl
      | succ n =>
          cases j with
          | zero => rfl
          | succ m => simpa using ih n m v (fun h => hij (by rw [h]))

theorem getD_ge_length {α : Type} (l : List α) (i : Nat) (d : α)
    (h : l.length ≤ i) : l.getD i d = d := by
  simp [List.getD_eq_getElem?_getD, List.getElem?_eq_none h]

theorem getD_map_range {α : Type} (f : Nat → α) (n i : Nat) (d : α) (h : i < n) :
    ((List.range n).map f).getD i d = f i := by
  rw [List.getD_eq_getElem ((List.range n).map f) d (by simpa using h)]
  simp

theorem map_getD_range {α : Type} (l : List α) (d : α) :
    (List.range l.length).map (fun i => l.getD i d) = l := by
  induction l with
  | nil => rfl
  | cons a as ih =>
      rw [List.length_cons, List.range_succ_eq_map, List.map_cons, List.map_map]
      simp only [List.getD_cons_zero, Function.comp]
      exact congrArg (a :: ·) ih

/-! ### Length lemmas -/

theorem length_directOffsets (N : Nat) : ∀ L, (directOffsets N L).length = 2*(L+1) := by
  intro L
  induction L with
  | zero => rfl
  | succ n ih => simp [directOffsets, ih]; omega

theorem length_directExists (b : Nat) : ∀ L, (directExists L b).length = 2*(L+1) := by
  intro L
  induction L with
  | zero => rfl
  | succ n ih => simp [directExists, ih]; omega

theorem markOutside_eq_replicate : ∀ L, markOutside L = List.replicate (3^(L+1)) false := by
  intro L
  induction L with
  | zero => rfl
  | succ n ih =>
      have h3 : 3^(n+1+1) = 3^(n+1) + (3^(n+1) + 3^(n+1)) := by ring
      rw [markOutside, ih, h3, List.replicate_add, List.replicate_add]

theorem length_markOutside (L : Nat) : (markOutside L).length = 3^(L+1) := by
  rw [markOutside_eq_replicate]; simp

theorem length_indirectOffsets : ∀ L (p : Shape) (c : Bool),
    (indirectOffsets L p c).length + (if c then 1 else 0) = 3^(L+1) := by
  intro L
  induction L with
  | zero =>
      intro p c
      cases c <;> simp [indirectOffsets]
  | succ n ih =>
      intro p c
      have h1 := ih (p.set (n+1) (-1)) false
      have h2 := ih (p.set (n+1) 0) c
      have h3 := ih (p.set (n+1) 1) false
      have hp : 3^(n+1+1) = 3^(n+1) + (3^(n+1) + 3^(n+1)) := by ring
      simp only [indirectOffsets, List.length_append]
      simp only [if_neg Bool.false_ne_true, Nat.add_zero] at h1 h3
      omega

theorem length_indirectExists : ∀ L (b : Nat) (c : Bool),
    (indirectExists L b c).length + (if c then 1 else 0) = 3^(L+1) := by
  intro L
  induction L with
  | zero =>
      intro b c
      cases c <;> simp [indirectExists]
  | succ n ih =>
      intro b c
      have h1 := ih b false
      have h2 := ih b c
      have hm := length_markOutside n
      have hp : 3^(n+1+1) = 3^(n+1) + (3^(n+1) + 3^(n+1)) := by ring
      simp only [if_neg Bool.false_ne_true, Nat.add_zero] at h1
      simp only [indirectExists, List.length_append]
      by_cases hlo : b &&& (1 <<< (2*(n+1))) = 0 <;>
        by_cases hhi : b &&& (2 <<< (2*(n+1))) = 0 <;>
          simp only [if_pos, if_neg, hlo, hhi, ite_true, ite_false] <;> omega

/-! ### Bitmask bridges -/

theorem and_shift_one_eq_zero (k m : Nat) :
    decide (k &&& (1 <<< m) = 0) = !k.testBit m := by
  have h1 : (1 : Nat) <<< m = 2^m := by rw [Nat.shiftLeft_eq, one_mul]
  have h2 : (0 : Nat) < 2^m := Nat.pow_pos (by norm_num)
  rw [h1, Nat.and_two_pow]
  cases h : k.testBit m <;> simp [h, Nat.ne_of_gt h2]

theorem and_shift_two_eq_zero (k m : Nat) :
    decide (k &&& (2 <<< m) = 0) = !k.testBit (m+1) := by
  have h1 : (2 : Nat) <<< m = 2^(m+1) := by
    rw [Nat.shiftLeft_eq, Nat.pow_succ, Nat.mul_comm]
  have h2 : (0 : Nat) < 2^(m+1) := Nat.pow_pos (by norm_num)
  rw [h1, Nat.and_two_pow]
  cases h : k.testBit (m+1) <;> simp [h, Nat.ne_of_gt h2]

/-! ### Membership lemmas for the indirect enumeration -/

theorem mem_indirectOffsets_length : ∀ L (p : Shape) (c : Bool) (off : Shape),
    off ∈ indirectOffsets L p c → off.length = p.length := by
  intro L
  induction L with
  | zero =>
      intro p c off h
      cases c <;> simp [indirectOffsets] at h <;> rcases h with rfl | rfl | rfl <;> simp
  | succ n ih =>
      intro p c off h
      simp only [indirectOffsets, List.mem_append] at h
      rcases h with h | h | h
      · rw [ih _ _ _ h, List.length_set]
      · rw [ih _ _ _ h, List.length_set]
      · rw [ih _ _ _ h, List.length_set]

theorem mem_indirectOffsets_getD_high : ∀ L (p : Shape) (c : Bool) (off : Shape),
    off ∈ indirectOffsets L p c → ∀ d, L < d → off.getD d 0 = p.getD d 0 := by
  intro L
  induction L with
  | zero =>
      intro p c off h d hd
      have hne : (0 : Nat) ≠ d := by omega
      cases c <;> simp [indirectOffsets] at h <;>
        rcases h with rfl | rfl | rfl <;> exact getD_set_ne p 0 d _ hne
  | succ n ih =>
      intro p c off h d hd
      have hne : n + 1 ≠ d := by omega
      simp only [indirectOffsets, List.mem_append] at h
      rcases h with h | h | h <;>
        rw [ih _ _ _ h d (by omega), getD_set_ne p (n+1) d _ hne]

/-! ### Pointwise computation of the per-dimension branch filter -/

theorem getD_zeroVec (N d : Nat) : (zeroVec N).getD d 0 = 0 := by
  by_cases h : d < N
  · rw [List.getD_eq_getElem _ _ (by simpa [zeroVec] using h)]
    simp [zeroVec]
  · exact getD_ge_length _ _ _ (by simpa [zeroVec] using Nat.le_of_not_lt h)

theorem offsetOkB_of_zero_coord (k : Nat) (off : Shape) (d : Nat)
    (h : off.getD d 0 = 0) : offsetOkB k off d = true := by
  unfold offsetOkB
  rw [h]
  simp

theorem offsetOkB_set_ne (k : Nat) (p : Shape) (j d : Nat) (v : Int) (h : j ≠ d) :
    offsetOkB k (p.set j v) d = offsetOkB k p d := by
  unfold offsetOkB
  rw [getD_set_ne p j d v h]

theorem offsetOkB_set_neg (k : Nat) (p : Shape) (j : Nat) (hj : j < p.length) :
    offsetOkB k (p.set j (-1)) j = !k.testBit (2*j) := by
  unfold offsetOkB
  rw [getD_set_self p j (-1) hj]
  cases k.testBit (2*j) <;> cases k.testBit (2*j+1) <;> rfl

theorem offsetOkB_set_pos (k : Nat) (p : Shape) (j : Nat) (hj : j < p.length) :
    offsetOkB k (p.set j 1) j = !k.testBit (2*j+1) := by
  unfold offsetOkB
  rw [getD_set_self p j 1 hj]
  cases k.testBit (2*j) <;> cases k.testBit (2*j+1) <;> rfl

theorem offsetOkB_set_zero (k : Nat) (p : Shape) (j : Nat) (hj : j < p.length) :
    offsetOkB k (p.set j 0) j = true := by
  unfold offsetOkB
  rw [getD_set_self p j 0 hj]
  cases k.testBit (2*j) <;> cases k.testBit (2*j+1) <;> rfl

theorem all_range_eq_single (B j : Nat) (f : Nat → Bool) (hj : j < B)
    (h : ∀ d, d < B → d ≠ j → f d = true) :
    (List.range B).all f = f j := by
  cases hfj : f j
  · cases hall : (List.range B).all f
    · rfl
    · exact absurd ((List.all_eq_true.mp hall) j (List.mem_range.mpr hj)) (by simp [hfj])
  · apply List.all_eq_true.mpr
    intro d hd
    by_cases hdj : d = j
    · rw [hdj]; exact hfj
    · exact h d (List.mem_range.mp hd) hdj

theorem all_range_eq_false (B j : Nat) (f : Nat → Bool) (hj : j < B)
    (h : f j = false) : (List.range B).all f = false := by
  cases hall : (List.range B).all f
  · rfl
  · exact absurd ((List.all_eq_true.mp hall) j (List.mem_range.mpr hj)) (by simp [h])

/-! ### The existence recursion computes the Cartesian-product filter -/

theorem indirectExists_eq_map_filter : ∀ L (k : Nat) (c : Bool) (p : Shape) (B : Nat),
    L < B → L < p.length →
    (∀ d, L < d → d < B → offsetOkB k p d = true) →
    indirectExists L k c =
      (indirectOffsets L p c).map (fun off => (List.range B).all (fun d => offsetOkB k off d)) := by
  intro L
  induction L with
  | zero =>
      intro k c p B hB hp hout
      have hv : ∀ (v : Int), ((List.range B).all (fun d => offsetOkB k (p.set 0 v) d)) =
          offsetOkB k (p.set 0 v) 0 := by
        intro v
        apply all_range_eq_single B 0 _ hB
        intro d hd hd0
        rw [offsetOkB_set_ne k p 0 d v (fun hh => hd0 hh.symm)]
        exact hout d (by omega) hd
      have hneg := (hv (-1)).trans (offsetOkB_set_neg k p 0 hp)
      have hzero := (hv 0).trans (offsetOkB_set_zero k p 0 hp)
      have hpos := (hv 1).trans (offsetOkB_set_pos k p 0 hp)
      norm_num at hneg hpos
      have h1 : decide (k &&& 1 = 0) = !k.testBit 0 := by
        simpa using and_shift_one_eq_zero k 0
      have h2 : decide (k &&& 2 = 0) = !k.testBit 1 := by
        simpa using and_shift_two_eq_zero k 0
      cases c <;>
        simp [indirectExists, indirectOffsets, hneg, hzero, hpos, h1, h2] <;>
        rcases Nat.mod_two_eq_zero_or_one k with hk2 | hk2 <;> simp [hk2]
  | succ n ih =>
      intro k c p B hB hp hout
      have hnB : n < B := by omega
      have houtZero : ∀ d, n < d → d < B → offsetOkB k (p.set (n+1) 0) d = true := by
        intro d hd hdB
        by_cases hdn : d = n + 1
        · rw [hdn]; exact offsetOkB_set_zero k p (n+1) hp
        · rw [offsetOkB_set_ne k p (n+1) d 0 (fun hh => hdn hh.symm)]
          exact hout d (by omega) hdB
      have hmid := ih k c (p.set (n+1) 0) B hnB (by rw [List.length_set]; omega) houtZero
      have hmarkOut : ∀ (v : Int), offsetOkB k (p.set (n+1) v) (n+1) = false →
          markOutside n = (indirectOffsets n (p.set (n+1) v) false).map
            (fun off => (List.range B).all (fun d => offsetOkB k off d)) := by
        intro v hv
        rw [markOutside_eq_replicate]
        symm
        rw [List.eq_replicate_iff]
        constructor
        · rw [List.length_map]
          simpa using length_indirectOffsets n (p.set (n+1) v) false
        · intro b hb
          rw [List.mem_map] at hb
          obtain ⟨off, hoff, rfl⟩ := hb
          apply all_range_eq_false B (n+1) _ (by omega)
          unfold offsetOkB at hv ⊢
          rw [mem_indirectOffsets_getD_high n _ false off hoff (n+1) (by omega)]
          exact hv
      have hrec : ∀ (v : Int), offsetOkB k (p.set (n+1) v) (n+1) = true →
          ∀ (cc : Bool), indirectExists n k cc = (indirectOffsets n (p.set (n+1) v) cc).map
            (fun off => (List.range B).all (fun d => offsetOkB k off d)) := by
        intro v hv cc
        apply ih k cc (p.set (n+1) v) B hnB (by rw [List.length_set]; omega)
        intro d hd hdB
        by_cases hdn : d = n + 1
        · rw [hdn]; exact hv
        · rw [offsetOkB_set_ne k p (n+1) d v (fun hh => hdn hh.symm)]
          exact hout d (by omega) hdB
      have hdlo := and_shift_one_eq_zero k (2*(n+1))
      have hdhi := and_shift_two_eq_zero k (2*(n+1))
      have hblock1 : (if k &&& (1 <<< (2*(n+1))) = 0 then indirectExists n k false else markOutside n)
          = (indirectOffsets n (p.set (n+1) (-1)) false).map
              (fun off => (List.range B).all (fun d => offsetOkB k off d)) := by
        by_cases hlo : k &&& (1 <<< (2*(n+1))) = 0
        · rw [if_pos hlo]
          have hbit : k.testBit (2*(n+1)) = false := by
            have hb : (!k.testBit (2*(n+1))) = true := by
              rw [← hdlo]; simp [hlo]
            simpa using hb
          apply hrec (-1) _ false
          rw [offsetOkB_set_neg k p (n+1) hp, hbit]
          rfl
        · rw [if_neg hlo]
          have hbit : k.testBit (2*(n+1)) = true := by
            have hb : (!k.testBit (2*(n+1))) = false := by
              rw [← hdlo]; simp [hlo]
            simpa using hb
          apply hmarkOut (-1)
          rw [offsetOkB_set_neg k p (n+1) hp, hbit]
          rfl
      have hblock3 : (if k &&& (2 <<< (2*(n+1))) = 0 then indirectExists n k false else markOutside n)
          = (indirectOffsets n (p.set (n+1) 1) false).map
              (fun off => (List.range B).all (fun d => offsetOkB k off d)) := by
        by_cases hhi : k &&& (2 <<< (2*(n+1))) = 0
        · rw [if_pos hhi]
          have hbit : k.testBit (2*(n+1)+1) = false := by
            have hb : (!k.testBit (2*(n+1)+1)) = true := by
              rw [← hdhi]; simp [hhi]
            simpa using hb
          apply hrec 1 _ false
          rw [offsetOkB_set_pos k p (n+1) hp, hbit]
          rfl
        · rw [if_neg hhi]
          have hbit : k.testBit (2*(n+1)+1) = true := by
            have hb : (!k.testBit (2*(n+1)+1)) = false := by
              rw [← hdhi]; simp [hhi]
            simpa using hb
          apply hmarkOut 1
          rw [offsetOkB_set_pos k p (n+1) hp, hbit]
          rfl
      simp only [indirectExists, indirectOffsets, List.map_append]
      rw [hblock1, hmid, hblock3]

theorem all_range_set_zeroVec (k B N j : Nat) (v : Int) (hj : j < B) :
    ((List.range B).all (fun d => offsetOkB k ((zeroVec N).set j v) d)) =
      offsetOkB k ((zeroVec N).set j v) j := by
  apply all_range_eq_single B j _ hj
  intro d hd hdj
  rw [offsetOkB_set_ne k (zeroVec N) j d v (fun hh => hdj hh.symm)]
  exact offsetOkB_of_zero_coord k _ d (getD_zeroVec N d)

theorem directExists_eq_map_filter : ∀ L (k B N : Nat), L < B → L < N →
    directExists L k =
      (directOffsets N L).map (fun off => (List.range B).all (fun d => offsetOkB k off d)) := by
  intro L
  induction L with
  | zero =>
      intro k B N hB hN
      have hzlen : 0 < (zeroVec N).length := by simp [zeroVec]; omega
      have hneg := (all_range_set_zeroVec k B N 0 (-1) hB).trans
        (offsetOkB_set_neg k (zeroVec N) 0 hzlen)
      have hpos := (all_range_set_zeroVec k B N 0 1 hB).trans
        (offsetOkB_set_pos k (zeroVec N) 0 hzlen)
      norm_num at hneg hpos
      have h1 : decide (k &&& 1 = 0) = !k.testBit 0 := by
        simpa using and_shift_one_eq_zero k 0
      have h2 : decide (k &&& 2 = 0) = !k.testBit 1 := by
        simpa using and_shift_two_eq_zero k 0
      simp [directExists, directOffsets, hneg, hpos, h1, h2] <;>
        rcases Nat.mod_two_eq_zero_or_one k with hk2 | hk2 <;> simp [hk2]
  | succ n ih =>
      intro k B N hB hN
      have hzlen : n + 1 < (zeroVec N).length := by simp [zeroVec]; omega
      have hneg := (all_range_set_zeroVec k B N (n+1) (-1) hB).trans
        (offsetOkB_set_neg k (zeroVec N) (n+1) hzlen)
      have hpos := (all_range_set_zeroVec k B N (n+1) 1 hB).trans
        (offsetOkB_set_pos k (zeroVec N) (n+1) hzlen)
      have hih := ih k B N (by omega) (by omega)
      simp only [directExists, directOffsets, List.map_cons, List.map_append, List.map_nil]
      rw [hih, hneg, hpos, and_shift_one_eq_zero k (2*(n+1)), and_shift_two_eq_zero k (2*(n+1))]

/-- Both existence recursions compute, flag by flag, the per-dimension
Cartesian-product filter of the spec. -/
theorem neighborExists_eq_cartesian (N : Nat) (nt : NeighborhoodType) (k : Nat) (hN : 1 ≤ N) :
    neighborExists N nt k = existsCartesianFilter N nt k := by
  cases nt with
  | DirectNeighborhood =>
      show directExists (N-1) k = (directOffsets N (N-1)).map _
      exact directExists_eq_map_filter (N-1) k N N (by omega) (by omega)
  | IndirectNeighborhood =>
      show indirectExists (N-1) k true = (indirectOffsets (N-1) (zeroVec N) true).map _
      apply indirectExists_eq_map_filter (N-1) k true (zeroVec N) N (by omega)
        (by simp [zeroVec]; omega)
      intro d h1 h2
      exact offsetOkB_of_zero_coord k _ d (getD_zeroVec N d)

/-- C1: for the indirect neighborhood, for every dimensionality N ≥ 1 and every
border code k in [0, 2^(2N)), the existence flags computed by the
triple-recursive masking equal, index by index, the Cartesian-product filter
reference: the flag at canonical index l is true iff for every dimension d it
is neither the case that offset[l][d] = -1 while bit 2d of k is set, nor that
offset[l][d] = +1 while bit 2d+1 of k is set. -/
theorem C1_indirect_exists_eq_cartesian_filter (N k : Nat) (hN : 1 ≤ N) (hk : k < 2^(2*N)) :
    neighborExists N NeighborhoodType.IndirectNeighborhood k =
      existsCartesianFilter N NeighborhoodType.IndirectNeighborhood k :=
  neighborExists_eq_cartesian N _ k hN

/-- Witness for C1 at N = 2, k = 3. -/
theorem C1_indirect_exists_eq_cartesian_filter_witness :
    1 ≤ 2 ∧ 3 < 2^(2*2) ∧
    neighborExists 2 NeighborhoodType.IndirectNeighborhood 3 =
      existsCartesianFilter 2 NeighborhoodType.IndirectNeighborhood 3 :=
  ⟨by decide, by decide, C1_indirect_exists_eq_cartesian_filter 2 3 (by decide) (by decide)⟩

/-! ### C2: table sizes -/

theorem length_neighborOffsets0_direct (N : Nat) (hN : 1 ≤ N) :
    (neighborOffsets0 N NeighborhoodType.DirectNeighborhood).length = 2*N := by
  show (directOffsets N (N-1)).length = 2*N
  rw [length_directOffsets]
  omega

theorem length_neighborOffsets0_indirect (N : Nat) (hN : 1 ≤ N) :
    (neighborOffsets0 N NeighborhoodType.IndirectNeighborhood).length = 3^N - 1 := by
  show (indirectOffsets (N-1) (zeroVec N) true).length = 3^N - 1
  have h := length_indirectOffsets (N-1) (zeroVec N) true
  have hN1 : N - 1 + 1 = N := by omega
  rw [hN1] at h
  simp only [if_pos] at h
  omega

theorem length_neighborExists (N : Nat) (nt : NeighborhoodType) (k : Nat) (hN : 1 ≤ N) :
    (neighborExists N nt k).length = (neighborOffsets0 N nt).length := by
  cases nt with
  | DirectNeighborhood =>
      show (directExists (N-1) k).length = (directOffsets N (N-1)).length
      rw [length_directExists, length_directOffsets]
  | IndirectNeighborhood =>
      show (indirectExists (N-1) k true).length = (indirectOffsets (N-1) (zeroVec N) true).length
      have h1 := length_indirectExists (N-1) k true
      have h2 := length_indirectOffsets (N-1) (zeroVec N) true
      omega

/-- C2: for every N ≥ 1, the canonical offset list has 2N entries for the
direct neighborhood and 3^N - 1 for the indirect one, and for every border
code k in [0, 2^(2N)) the emitted existence sequence has exactly the length
of the canonical offset list for both neighborhood shapes. -/
theorem C2_table_lengths (N k : Nat) (hN : 1 ≤ N) (hk : k < 2^(2*N)) :
    (neighborOffsets0 N NeighborhoodType.DirectNeighborhood).length = 2*N ∧
    (neighborOffsets0 N NeighborhoodType.IndirectNeighborhood).length = 3^N - 1 ∧
    (neighborExists N NeighborhoodType.DirectNeighborhood k).length =
      (neighborOffsets0 N NeighborhoodType.DirectNeighborhood).length ∧
    (neighborExists N NeighborhoodType.IndirectNeighborhood k).length =
      (neighborOffsets0 N NeighborhoodType.IndirectNeighborhood).length :=
  ⟨length_neighborOffsets0_direct N hN, length_neighborOffsets0_indirect N hN,
   length_neighborExists N _ k hN, length_neighborExists N _ k hN⟩

/-- Witness for C2 at N = 2, k = 5. -/
theorem C2_table_lengths_witness :
    1 ≤ 2 ∧ 5 < 2^(2*2) ∧
    ((neighborOffsets0 2 NeighborhoodType.DirectNeighborhood).length = 2*2 ∧
     (neighborOffsets0 2 NeighborhoodType.IndirectNeighborhood).length = 3^2 - 1 ∧
     (neighborExists 2 NeighborhoodType.DirectNeighborhood 5).length =
       (neighborOffsets0 2 NeighborhoodType.DirectNeighborhood).length ∧
     (neighborExists 2 NeighborhoodType.IndirectNeighborhood 5).length =
       (neighborOffsets0 2 NeighborhoodType.IndirectNeighborhood).length) :=
  ⟨by decide, by decide, C2_table_lengths 2 5 (by decide) (by decide)⟩

/-! ### C7: the border classifier, bit by bit -/

theorem testBit_one (j : Nat) : (1:Nat).testBit j = decide (0 = j) := by
  have e : (1:Nat) = 2^0 := rfl
  rw [e, Nat.testBit_two_pow]

theorem testBit_two (j : Nat) : (2:Nat).testBit j = decide (1 = j) := by
  have e : (2:Nat) = 2^1 := rfl
  rw [e, Nat.testBit_two_pow]

theorem testBit_ite_pow (c : Prop) [Decidable c] (m j : Nat) :
    ((if c then ((1:Nat) <<< m) else 0)).testBit j = (decide c && decide (m = j)) := by
  split
  · rename_i h
    rw [Nat.shiftLeft_eq, one_mul, Nat.testBit_two_pow]
    simp [h]
  · rename_i h
    simp [Nat.zero_testBit, h]

theorem testBit_ite_pow2 (c : Prop) [Decidable c] (m j : Nat) :
    ((if c then ((2:Nat) <<< m) else 0)).testBit j = (decide c && decide (m+1 = j)) := by
  split
  · rename_i h
    have h2 : (2:Nat) <<< m = 2^(m+1) := by rw [Nat.shiftLeft_eq, Nat.pow_succ, Nat.mul_comm]
    rw [h2, Nat.testBit_two_pow]
    simp [h]
  · rename_i h
    simp [Nat.zero_testBit, h]

theorem borderTypeImpl_testBit_high : ∀ D (p s : Shape) (j : Nat), 2*D+1 < j →
    (borderTypeImpl D p s).testBit j = false := by
  intro D
  induction D with
  | zero =>
      intro p s j hj
      unfold borderTypeImpl
      rw [Nat.testBit_or]
      have e1 : ((if p.getD 0 0 = 0 then (1:Nat) else 0)).testBit j = false := by
        split
        · rw [testBit_one]
          simp only [decide_eq_false_iff_not]
          omega
        · simp [Nat.zero_testBit]
      have e2 : ((if p.getD 0 0 = s.getD 0 0 - 1 then (2:Nat) else 0)).testBit j = false := by
        split
        · rw [testBit_two]
          simp only [decide_eq_false_iff_not]
          omega
        · simp [Nat.zero_testBit]
      rw [e1, e2]
      rfl
  | succ n ih =>
      intro p s j hj
      unfold borderTypeImpl
      rw [Nat.testBit_or, Nat.testBit_or]
      rw [ih p s j (by omega), testBit_ite_pow, testBit_ite_pow2]
      have d1 : decide (2*(n+1) = j) = false := by
        simp only [decide_eq_false_iff_not]
        omega
      have d2 : decide (2*(n+1)+1 = j) = false := by
        simp only [decide_eq_false_iff_not]
        omega
      rw [d1, d2]
      simp

theorem borderTypeImpl_testBit_low : ∀ D (p s : Shape) (d : Nat), d ≤ D →
    (borderTypeImpl D p s).testBit (2*d) = decide (p.getD d 0 = 0) ∧
    (borderTypeImpl D p s).testBit (2*d+1) = decide (p.getD d 0 = s.getD d 0 - 1) := by
  intro D
  induction D with
  | zero =>
      intro p s d hd
      have hd0 : d = 0 := Nat.le_zero.mp hd
      subst hd0
      unfold borderTypeImpl
      by_cases h1 : p.getD 0 0 = 0 <;> by_cases h2 : p.getD 0 0 = s.getD 0 0 - 1
      · rw [if_pos h1, if_pos h2, decide_eq_true h1, decide_eq_true h2]
        exact ⟨by decide, by decide⟩
      · rw [if_pos h1, if_neg h2, decide_eq_true h1, decide_eq_false h2]
        exact ⟨by decide, by decide⟩
      · rw [if_neg h1, if_pos h2, decide_eq_false h1, decide_eq_true h2]
        exact ⟨by decide, by decide⟩
      · rw [if_neg h1, if_neg h2, decide_eq_false h1, decide_eq_false h2]
        exact ⟨by decide, by decide⟩
  | succ n ih =>
      intro p s d hd
      by_cases hdn : d = n + 1
      · subst hdn
        unfold borderTypeImpl
        constructor
        · rw [Nat.testBit_or, Nat.testBit_or,
              borderTypeImpl_testBit_high n p s _ (by omega),
              testBit_ite_pow, testBit_ite_pow2]
          have e1 : decide (2*(n+1) = 2*(n+1)) = true := by simp
          have e2 : decide (2*(n+1)+1 = 2*(n+1)) = false := by
            simp only [decide_eq_false_iff_not]
            omega
          rw [e1, e2]
          simp
        · rw [Nat.testBit_or, Nat.testBit_or,
              borderTypeImpl_testBit_high n p s _ (by omega),
              testBit_ite_pow, testBit_ite_pow2]
          have e1 : decide (2*(n+1) = 2*(n+1)+1) = false := by
            simp only [decide_eq_false_iff_not]
            omega
          have e2 : decide (2*(n+1)+1 = 2*(n+1)+1) = true := by simp
          rw [e1, e2]
          simp
      · have hd2 : d ≤ n := by omega
        have hih := ih p s d hd2
        unfold borderTypeImpl
        constructor
        · rw [Nat.testBit_or, Nat.testBit_or, testBit_ite_pow, testBit_ite_pow2]
          have e1 : decide (2*(n+1) = 2*d) = false := by
            simp only [decide_eq_false_iff_not]
            omega
          have e2 : decide (2*(n+1)+1 = 2*d) = false := by
            simp only [decide_eq_false_iff_not]
            omega
          rw [e1, e2, hih.1]
          simp
        · rw [Nat.testBit_or, Nat.testBit_or, testBit_ite_pow, testBit_ite_pow2]
          have e1 : decide (2*(n+1) = 2*d+1) = false := by
            simp only [decide_eq_false_iff_not]
            omega
          have e2 : decide (2*(n+1)+1 = 2*d+1) = false := by
            simp only [decide_eq_false_iff_not]
            omega
          rw [e1, e2, hih.2]
          simp

/-- C7: for every coordinate in range of a region shape with all extents ≥ 1,
the border classifier sets bit 2d exactly when coordinate[d] = 0 and bit 2d+1
exactly when coordinate[d] = shape[d]-1; both bits of a pair are set together
only when shape[d] = 1, and the code is 0 exactly for strictly interior
points. -/
theorem C7_border_classifier (N : Nat) (hN : 1 ≤ N) (p s : Shape)
    (hp : p.length = N) (hs : s.length = N)
    (hrange : ∀ d, d < N → 1 ≤ s.getD d 0 ∧ 0 ≤ p.getD d 0 ∧ p.getD d 0 ≤ s.getD d 0 - 1) :
    (∀ d, d < N →
      ((borderType N p s).testBit (2*d) = decide (p.getD d 0 = 0) ∧
       (borderType N p s).testBit (2*d+1) = decide (p.getD d 0 = s.getD d 0 - 1))) ∧
    (∀ d, d < N → (borderType N p s).testBit (2*d) = true →
      (borderType N p s).testBit (2*d+1) = true → s.getD d 0 = 1) ∧
    ((borderType N p s = 0) ↔ ∀ d, d < N → p.getD d 0 ≠ 0 ∧ p.getD d 0 ≠ s.getD d 0 - 1) := by
  have hbits : ∀ d, d < N →
      ((borderType N p s).testBit (2*d) = decide (p.getD d 0 = 0) ∧
       (borderType N p s).testBit (2*d+1) = decide (p.getD d 0 = s.getD d 0 - 1)) := by
    intro d hd
    exact borderTypeImpl_testBit_low (N-1) p s d (by omega)
  refine ⟨hbits, ?_, ?_⟩
  · intro d hd h1 h2
    have e1 : p.getD d 0 = 0 := by
      have := (hbits d hd).1
      rw [h1] at this
      exact of_decide_eq_true this.symm
    have e2 : p.getD d 0 = s.getD d 0 - 1 := by
      have := (hbits d hd).2
      rw [h2] at this
      exact of_decide_eq_true this.symm
    omega
  · constructor
    · intro h0 d hd
      have h1 := (hbits d hd).1
      have h2 := (hbits d hd).2
      rw [h0, Nat.zero_testBit] at h1 h2
      exact ⟨of_decide_eq_false h1.symm, of_decide_eq_false h2.symm⟩
    · intro hint
      apply Nat.eq_of_testBit_eq
      intro j
      rw [Nat.zero_testBit]
      show (borderTypeImpl (N-1) p s).testBit j = false
      by_cases hj : 2*(N-1)+1 < j
      · exact borderTypeImpl_testBit_high (N-1) p s j hj
      · have hjN : j / 2 < N := by omega
        rcases Nat.mod_two_eq_zero_or_one j with hm | hm
        · have hj2 : j = 2*(j/2) := by omega
          rw [hj2, (borderTypeImpl_testBit_low (N-1) p s (j/2) (by omega)).1]
          simp only [decide_eq_false_iff_not]
          exact (hint (j/2) hjN).1
        · have hj2 : j = 2*(j/2)+1 := by omega
          rw [hj2, (borderTypeImpl_testBit_low (N-1) p s (j/2) (by omega)).2]
          simp only [decide_eq_false_iff_not]
          exact (hint (j/2) hjN).2

/-- Witness for C7 at N = 2, p = (0, 3), s = (4, 4). -/
theorem C7_border_classifier_witness :
    1 ≤ 2 ∧ [(0:Int), 3].length = 2 ∧ [(4:Int), 4].length = 2 ∧
    (∀ d, d < 2 → 1 ≤ [(4:Int), 4].getD d 0 ∧ 0 ≤ [(0:Int), 3].getD d 0 ∧
      [(0:Int), 3].getD d 0 ≤ [(4:Int), 4].getD d 0 - 1) ∧
    ((∀ d, d < 2 →
      ((borderType 2 [0, 3] [4, 4]).testBit (2*d) = decide ([(0:Int), 3].getD d 0 = 0) ∧
       (borderType 2 [0, 3] [4, 4]).testBit (2*d+1) =
         decide ([(0:Int), 3].getD d 0 = [(4:Int), 4].getD d 0 - 1))) ∧
    (∀ d, d < 2 → (borderType 2 [0, 3] [4, 4]).testBit (2*d) = true →
      (borderType 2 [0, 3] [4, 4]).testBit (2*d+1) = true → [(4:Int), 4].getD d 0 = 1) ∧
    ((borderType 2 [0, 3] [4, 4] = 0) ↔
      ∀ d, d < 2 → [(0:Int), 3].getD d 0 ≠ 0 ∧
        [(0:Int), 3].getD d 0 ≠ [(4:Int), 4].getD d 0 - 1)) :=
  ⟨by decide, by decide, by decide, by decide,
   C7_border_classifier 2 (by decide) [0, 3] [4, 4] (by decide) (by decide) (by decide)⟩

/-! ### C5: the causal / anticausal partition -/

/-- C5: for every border code and neighbor index, the causal flag equals
existence AND negative natural stride, the anticausal flag equals existence
AND non-negative natural stride; no index has both flags, and their
disjunction is the existence flag. -/
theorem C5_causal_anticausal_partition (N : Nat) (nt : NeighborhoodType) (k l : Nat)
    (hN : 1 ≤ N) (hk : k < 2^(2*N)) (hl : l < neighborCount N nt) :
    ((causalNeighborExists N nt k).getD l false =
      ((neighborExists N nt k).getD l false &&
       decide (dot ((neighborOffsets0 N nt).getD l []) (strides3 N) < 0))) ∧
    ((anticausalNeighborExists N nt k).getD l false =
      ((neighborExists N nt k).getD l false &&
       !decide (dot ((neighborOffsets0 N nt).getD l []) (strides3 N) < 0))) ∧
    ¬((causalNeighborExists N nt k).getD l false = true ∧
      (anticausalNeighborExists N nt k).getD l false = true) ∧
    (((causalNeighborExists N nt k).getD l false ||
      (anticausalNeighborExists N nt k).getD l false) =
      (neighborExists N nt k).getD l false) := by
  have hc : (causalNeighborExists N nt k).getD l false =
      (if dot ((neighborOffsets0 N nt).getD l []) (strides3 N) < 0
       then (neighborExists N nt k).getD l false else false) := by
    unfold causalNeighborExists
    exact getD_map_range _ _ l false hl
  have ha : (anticausalNeighborExists N nt k).getD l false =
      (if dot ((neighborOffsets0 N nt).getD l []) (strides3 N) < 0
       then false else (neighborExists N nt k).getD l false) := by
    unfold anticausalNeighborExists
    exact getD_map_range _ _ l false hl
  by_cases hs : dot ((neighborOffsets0 N nt).getD l []) (strides3 N) < 0
  · rw [hc, ha, if_pos hs, if_pos hs, decide_eq_true hs]
    cases hx : (neighborExists N nt k).getD l false <;> simp
  · rw [hc, ha, if_neg hs, if_neg hs, decide_eq_false hs]
    cases hx : (neighborExists N nt k).getD l false <;> simp

/-- Witness for C5 at N = 2, direct neighborhood, k = 1, l = 0. -/
theorem C5_causal_anticausal_partition_witness :
    1 ≤ 2 ∧ 1 < 2^(2*2) ∧ 0 < neighborCount 2 NeighborhoodType.DirectNeighborhood ∧
    (((causalNeighborExists 2 NeighborhoodType.DirectNeighborhood 1).getD 0 false =
      ((neighborExists 2 NeighborhoodType.DirectNeighborhood 1).getD 0 false &&
       decide (dot ((neighborOffsets0 2 NeighborhoodType.DirectNeighborhood).getD 0 [])
         (strides3 2) < 0))) ∧
    ((anticausalNeighborExists 2 NeighborhoodType.DirectNeighborhood 1).getD 0 false =
      ((neighborExists 2 NeighborhoodType.DirectNeighborhood 1).getD 0 false &&
       !decide (dot ((neighborOffsets0 2 NeighborhoodType.DirectNeighborhood).getD 0 [])
         (strides3 2) < 0))) ∧
    ¬((causalNeighborExists 2 NeighborhoodType.DirectNeighborhood 1).getD 0 false = true ∧
      (anticausalNeighborExists 2 NeighborhoodType.DirectNeighborhood 1).getD 0 false = true) ∧
    (((causalNeighborExists 2 NeighborhoodType.DirectNeighborhood 1).getD 0 false ||
      (anticausalNeighborExists 2 NeighborhoodType.DirectNeighborhood 1).getD 0 false) =
      (neighborExists 2 NeighborhoodType.DirectNeighborhood 1).getD 0 false)) :=
  ⟨by decide, by decide, by decide,
   C5_causal_anticausal_partition 2 NeighborhoodType.DirectNeighborhood 1 0
     (by decide) (by decide) (by decide)⟩

/-! ### Counting helpers for C6 -/

theorem countP_range_getD : ∀ (bs : List Bool),
    ((List.range bs.length).countP (fun l => bs.getD l false)) = bs.count true := by
  intro bs
  induction bs with
  | nil => rfl
  | cons b rest ih =>
      rw [List.length_cons, List.range_succ_eq_map, List.countP_cons, List.countP_map]
      have hcomp : ((fun l => (b :: rest).getD l false) ∘ Nat.succ) =
          (fun l => rest.getD l false) := rfl
      rw [hcomp, ih, List.count_cons]
      cases b <;> simp

theorem countP_add_of_partition : ∀ (r : List Nat) (f g h : Nat → Bool),
    (∀ x ∈ r, (if f x then 1 else 0) + (if g x then 1 else 0) = (if h x then 1 else 0)) →
    r.countP f + r.countP g = r.countP h := by
  intro r
  induction r with
  | nil => intro f g h _; rfl
  | cons a as ih =>
      intro f g h hx
      rw [List.countP_cons, List.countP_cons, List.countP_cons]
      have h1 := hx a (List.mem_cons_self a as)
      have h2 := ih f g h (fun x hxx => hx x (List.mem_cons_of_mem a hxx))
      omega

/-! ### C6: index lookup and per-code offset lists -/

theorem offsetOkB_code_zero (off : Shape) (d : Nat) : offsetOkB 0 off d = true := by
  unfold offsetOkB
  rw [Nat.zero_testBit, Nat.zero_testBit]
  simp

/-- For border code 0 (interior) every neighbor exists. -/
theorem neighborExists_zero_getD (N : Nat) (nt : NeighborhoodType) (hN : 1 ≤ N) (l : Nat)
    (hl : l < neighborCount N nt) : (neighborExists N nt 0).getD l false = true := by
  rw [neighborExists_eq_cartesian N nt 0 hN]
  unfold existsCartesianFilter
  have hl2 : l < ((neighborOffsets0 N nt).map
      (fun off => (List.range N).all (fun d => offsetOkB 0 off d))).length := by
    simpa using hl
  rw [List.getD_eq_getElem _ _ hl2, List.getElem_map]
  apply List.all_eq_true.mpr
  intro d _
  exact offsetOkB_code_zero _ d

theorem filterMap_ite_some {α β : Type} (r : List α) (p : α → Bool) (v : α → β) :
    r.filterMap (fun x => if p x then some (v x) else none) = (r.filter p).map v := by
  induction r with
  | nil => rfl
  | cons a as ih =>
      by_cases h : p a
      · rw [List.filterMap_cons, List.filter_cons]
        simp [h, ih]
      · rw [List.filterMap_cons, List.filter_cons]
        simp [h, ih]

/-- The per-code offset list is, for every code, the canonical list filtered
by the existence flags. -/
theorem perCodeNeighborOffsets_eq_filter (N : Nat) (nt : NeighborhoodType) (k : Nat)
    (hN : 1 ≤ N) :
    perCodeNeighborOffsets N nt k =
      ((List.range (neighborCount N nt)).filter
        (fun l => (neighborExists N nt k).getD l false)).map
          (fun l => (neighborOffsets0 N nt).getD l []) := by
  unfold perCodeNeighborOffsets
  by_cases hk0 : k = 0
  · subst hk0
    rw [if_pos rfl]
    rw [List.filter_eq_self.mpr ?hall]
    case hall =>
      intro x hx
      exact neighborExists_zero_getD N nt hN x (List.mem_range.mp hx)
    exact (map_getD_range (neighborOffsets0 N nt) []).symm
  · rw [if_neg hk0]
    exact filterMap_ite_some _ _ _

/-- C6: for every border code k, the index lookup lists in ascending order
exactly the indices whose existence flag is true; its size equals the number
of true existence flags and the sum of true causal and anticausal flags; the
per-code offset list for code 0 is the full canonical list, and for every k
its size equals the index-lookup size. -/
theorem C6_index_lookup_per_code (N k : Nat) (nt : NeighborhoodType)
    (hN : 1 ≤ N) (hk : k < 2^(2*N)) :
    (neighborIndexLookup N nt k).Pairwise (· < ·) ∧
    (∀ l, l ∈ neighborIndexLookup N nt k ↔
      (l < neighborCount N nt ∧ (neighborExists N nt k).getD l false = true)) ∧
    (neighborIndexLookup N nt k).length = (neighborExists N nt k).count true ∧
    (neighborIndexLookup N nt k).length =
      (causalNeighborExists N nt k).count true +
      (anticausalNeighborExists N nt k).count true ∧
    perCodeNeighborOffsets N nt 0 = neighborOffsets0 N nt ∧
    (perCodeNeighborOffsets N nt k).length = (neighborIndexLookup N nt k).length := by
  have hlen : (neighborExists N nt k).length = neighborCount N nt :=
    length_neighborExists N nt k hN
  have hlook : (neighborIndexLookup N nt k).length = (neighborExists N nt k).count true := by
    unfold neighborIndexLookup
    rw [← List.countP_eq_length_filter]
    rw [show neighborCount N nt = (neighborExists N nt k).length from hlen.symm]
    exact countP_range_getD _
  have hsum : (causalNeighborExists N nt k).count true +
      (anticausalNeighborExists N nt k).count true =
      (neighborExists N nt k).count true := by
    unfold causalNeighborExists anticausalNeighborExists
    rw [List.count_eq_countP, List.count_eq_countP, List.countP_map, List.countP_map]
    rw [← countP_range_getD (neighborExists N nt k), hlen]
    apply countP_add_of_partition
    intro x _
    simp only [Function.comp]
    by_cases hs : dot ((neighborOffsets0 N nt).getD x []) (strides3 N) < 0
    · have hs' : dot ((neighborOffsets0 N nt)[x]?.getD []) (strides3 N) < 0 := by
        simpa [List.getD_eq_getElem?_getD] using hs
      simp [hs', not_le.mpr hs']
    · have hs' : (0:Int) ≤ dot ((neighborOffsets0 N nt)[x]?.getD []) (strides3 N) := by
        have h2 := Int.not_lt.mp hs
        simpa [List.getD_eq_getElem?_getD] using h2
      simp [hs', not_lt.mpr hs']
  refine ⟨(List.pairwise_lt_range _).filter _, ?_, hlook, ?_, ?_, ?_⟩
  · intro l
    unfold neighborIndexLookup
    rw [List.mem_filter, List.mem_range]
  · rw [hlook, hsum]
  · have h0 : (0:Nat) = 0 := rfl
    unfold perCodeNeighborOffsets
    rw [if_pos h0]
  · rw [perCodeNeighborOffsets_eq_filter N nt k hN, List.length_map]
    rfl

/-- Witness for C6 at N = 2, direct neighborhood, k = 6. -/
theorem C6_index_lookup_per_code_witness :
    1 ≤ 2 ∧ 6 < 2^(2*2) ∧
    ((neighborIndexLookup 2 NeighborhoodType.DirectNeighborhood 6).Pairwise (· < ·) ∧
    (∀ l, l ∈ neighborIndexLookup 2 NeighborhoodType.DirectNeighborhood 6 ↔
      (l < neighborCount 2 NeighborhoodType.DirectNeighborhood ∧
       (neighborExists 2 NeighborhoodType.DirectNeighborhood 6).getD l false = true)) ∧
    (neighborIndexLookup 2 NeighborhoodType.DirectNeighborhood 6).length =
      (neighborExists 2 NeighborhoodType.DirectNeighborhood 6).count true ∧
    (neighborIndexLookup 2 NeighborhoodType.DirectNeighborhood 6).length =
      (causalNeighborExists 2 NeighborhoodType.DirectNeighborhood 6).count true +
      (anticausalNeighborExists 2 NeighborhoodType.DirectNeighborhood 6).count true ∧
    perCodeNeighborOffsets 2 NeighborhoodType.DirectNeighborhood 0 =
      neighborOffsets0 2 NeighborhoodType.DirectNeighborhood ∧
    (perCodeNeighborOffsets 2 NeighborhoodType.DirectNeighborhood 6).length =
      (neighborIndexLookup 2 NeighborhoodType.DirectNeighborhood 6).length) :=
  ⟨by decide, by decide,
   C6_index_lookup_per_code 2 6 NeighborhoodType.DirectNeighborhood (by decide) (by decide)⟩

/-! ### C8: the flat-stride table of makeArraySubNeighborhood -/

/-- C8: for every border code k and stride vector, the flat-stride row is the
sequence of dot products of exactly the existing canonical offsets, in
canonical order; equivalently it is the per-code offset list mapped through
dot with the strides. -/
theorem C8_flat_stride_table (N k : Nat) (nt : NeighborhoodType) (strides : Shape)
    (hN : 1 ≤ N) (hk : k < 2^(2*N)) :
    flatStrideTable N nt strides k =
      ((List.range (neighborCount N nt)).filter
        (fun l => (neighborExists N nt k).getD l false)).map
          (fun l => dot ((neighborOffsets0 N nt).getD l []) strides) ∧
    flatStrideTable N nt strides k =
      (perCodeNeighborOffsets N nt k).map (fun off => dot off strides) := by
  have h1 : flatStrideTable N nt strides k =
      ((List.range (neighborCount N nt)).filter
        (fun l => (neighborExists N nt k).getD l false)).map
          (fun l => dot ((neighborOffsets0 N nt).getD l []) strides) := by
    unfold flatStrideTable flatStrides
    exact filterMap_ite_some _ _ _
  refine ⟨h1, ?_⟩
  rw [h1, perCodeNeighborOffsets_eq_filter N nt k hN, List.map_map]
  rfl

/-- Witness for C8 at N = 2, direct neighborhood, k = 9, strides (1, 7). -/
theorem C8_flat_stride_table_witness :
    1 ≤ 2 ∧ 9 < 2^(2*2) ∧
    (flatStrideTable 2 NeighborhoodType.DirectNeighborhood [1, 7] 9 =
      ((List.range (neighborCount 2 NeighborhoodType.DirectNeighborhood)).filter
        (fun l => (neighborExists 2 NeighborhoodType.DirectNeighborhood 9).getD l false)).map
          (fun l => dot ((neighborOffsets0 2 NeighborhoodType.DirectNeighborhood).getD l [])
            [1, 7]) ∧
    flatStrideTable 2 NeighborhoodType.DirectNeighborhood [1, 7] 9 =
      (perCodeNeighborOffsets 2 NeighborhoodType.DirectNeighborhood 9).map
        (fun off => dot off [1, 7])) :=
  ⟨by decide, by decide,
   C8_flat_stride_table 2 9 NeighborhoodType.DirectNeighborhood [1, 7]
     (by decide) (by decide)⟩

/-! ### C10: existence is antitone in the border code -/

theorem offsetOkB_antitone (k1 k2 : Nat) (off : Shape) (d : Nat)
    (hsub : ∀ i, k1.testBit i = true → k2.testBit i = true)
    (h : offsetOkB k2 off d = true) : offsetOkB k1 off d = true := by
  unfold offsetOkB at h ⊢
  cases ha : (off.getD d 0 == -1) <;> cases hb : (off.getD d 0 == 1)
  · simp [ha, hb]
  · cases hk1 : k1.testBit (2*d+1)
    · simp [ha, hb, hk1]
    · have hk2b := hsub _ hk1
      rw [ha, hb, hk2b] at h
      simp at h
  · cases hk1 : k1.testBit (2*d)
    · simp [ha, hb, hk1]
    · have hk2b := hsub _ hk1
      rw [ha, hb, hk2b] at h
      simp at h
  · have e1 : off.getD d 0 = -1 := by simpa using ha
    have e2 : off.getD d 0 = 1 := by simpa using hb
    omega

/-- C10: for both neighborhood shapes, if every bit set in k1 is also set in
k2, every neighbor existing under k2 also exists under k1; adding border
flags never creates a neighbor. -/
theorem C10_exists_antitone (N k1 k2 l : Nat) (nt : NeighborhoodType) (hN : 1 ≤ N)
    (hk2 : k2 < 2^(2*N)) (hsub : ∀ i, k1.testBit i = true → k2.testBit i = true)
    (hex : (neighborExists N nt k2).getD l false = true) :
    (neighborExists N nt k1).getD l false = true := by
  rw [neighborExists_eq_cartesian N nt k2 hN] at hex
  rw [neighborExists_eq_cartesian N nt k1 hN]
  unfold existsCartesianFilter at hex ⊢
  by_cases hl : l < (neighborOffsets0 N nt).length
  · rw [List.getD_eq_getElem _ _ (by simpa using hl)] at hex ⊢
    rw [List.getElem_map] at hex ⊢
    apply List.all_eq_true.mpr
    intro d hd
    exact offsetOkB_antitone k1 k2 _ d hsub (List.all_eq_true.mp hex d hd)
  · rw [getD_ge_length _ _ _ (by simpa using Nat.le_of_not_lt hl)] at hex
    exact absurd hex (by simp)

/-- Witness for C10 at N = 2, indirect neighborhood, k1 = 1, k2 = 5, l = 4. -/
theorem C10_exists_antitone_witness :
    1 ≤ 2 ∧ 5 < 2^(2*2) ∧ (∀ i, Nat.testBit 1 i = true → Nat.testBit 5 i = true) ∧
    (neighborExists 2 NeighborhoodType.IndirectNeighborhood 5).getD 4 false = true ∧
    (neighborExists 2 NeighborhoodType.IndirectNeighborhood 1).getD 4 false = true := by
  have hsub : ∀ i, Nat.testBit 1 i = true → Nat.testBit 5 i = true := by
    intro i hi
    rw [testBit_one] at hi
    have h0 : 0 = i := of_decide_eq_true hi
    subst h0
    decide
  exact ⟨by decide, by decide, hsub, by decide,
    C10_exists_antitone 2 1 5 4 NeighborhoodType.IndirectNeighborhood
      (by decide) (by decide) hsub (by decide)⟩

/-! ### C4: point-reflection symmetry of the canonical offset list -/

theorem negVec_set (p : Shape) (i : Nat) (v : Int) :
    negVec (p.set i v) = (negVec p).set i (-v) := by
  unfold negVec
  exact List.map_set

theorem negVec_zeroVec (N : Nat) : negVec (zeroVec N) = zeroVec N := by
  unfold negVec zeroVec
  rw [List.map_replicate]
  norm_num

theorem negVec_negVec (v : Shape) : negVec (negVec v) = v := by
  unfold negVec
  rw [List.map_map]
  simp

theorem directOffsets_map_neg (N : Nat) : ∀ L,
    (directOffsets N L).map negVec = (directOffsets N L).reverse := by
  intro L
  induction L with
  | zero => simp [directOffsets, negVec_set, negVec_zeroVec]
  | succ n ih => simp [directOffsets, negVec_set, negVec_zeroVec, ih]

theorem indirectOffsets_map_neg : ∀ L (p : Shape) (c : Bool),
    (indirectOffsets L p c).map negVec = (indirectOffsets L (negVec p) c).reverse := by
  intro L
  induction L with
  | zero =>
      intro p c
      cases c <;> simp [indirectOffsets, negVec_set]
  | succ n ih =>
      intro p c
      simp only [indirectOffsets, List.map_append, List.reverse_append]
      rw [ih, ih, ih, negVec_set, negVec_set, negVec_set]
      norm_num [List.append_assoc]

theorem getD_reverse_shape (lst : List Shape) (i : Nat) (h : i < lst.length) :
    lst.reverse.getD i [] = lst.getD (lst.length - 1 - i) [] := by
  rw [List.getD_eq_getElem _ _ (by simpa using h), List.getD_eq_getElem _ _ (by omega)]
  rw [List.getElem_reverse]

theorem getD_map_negVec (lst : List Shape) (i : Nat) :
    (lst.map negVec).getD i [] = negVec (lst.getD i []) := by
  by_cases h : i < lst.length
  · rw [List.getD_eq_getElem _ _ (by simpa using h), List.getD_eq_getElem _ _ h,
        List.getElem_map]
  · rw [getD_ge_length _ _ _ (by simpa using Nat.le_of_not_lt h),
        getD_ge_length _ _ _ (Nat.le_of_not_lt h)]
    rfl

/-- The canonical offset list reversed is its componentwise negation, for
both neighborhood shapes. -/
theorem neighborOffsets0_map_neg (N : Nat) (nt : NeighborhoodType) :
    (neighborOffsets0 N nt).map negVec = (neighborOffsets0 N nt).reverse := by
  cases nt with
  | DirectNeighborhood => exact directOffsets_map_neg N (N-1)
  | IndirectNeighborhood =>
      show (indirectOffsets (N-1) (zeroVec N) true).map negVec = _
      rw [indirectOffsets_map_neg, negVec_zeroVec]
      rfl

/-- C4: for both neighborhood shapes, the canonical offset list is
point-reflection symmetric: entry l is the componentwise negation of entry
count-1-l. -/
theorem C4_reflection_symmetry (N : Nat) (nt : NeighborhoodType) (l : Nat)
    (hN : 1 ≤ N) (hl : l < neighborCount N nt) :
    (neighborOffsets0 N nt).getD l [] =
      negVec ((neighborOffsets0 N nt).getD (neighborCount N nt - 1 - l) []) := by
  have hl' : l < (neighborOffsets0 N nt).length := hl
  have h1 := getD_map_negVec (neighborOffsets0 N nt) l
  have h2 := getD_reverse_shape (neighborOffsets0 N nt) l hl'
  have h3 : negVec ((neighborOffsets0 N nt).getD l []) =
      (neighborOffsets0 N nt).getD (neighborCount N nt - 1 - l) [] := by
    rw [← h1, neighborOffsets0_map_neg, h2]
    rfl
  calc (neighborOffsets0 N nt).getD l []
      = negVec (negVec ((neighborOffsets0 N nt).getD l [])) := (negVec_negVec _).symm
    _ = negVec ((neighborOffsets0 N nt).getD (neighborCount N nt - 1 - l) []) := by rw [h3]

/-- Witness for C4 at N = 2, indirect neighborhood, l = 2. -/
theorem C4_reflection_symmetry_witness :
    1 ≤ 2 ∧ 2 < neighborCount 2 NeighborhoodType.IndirectNeighborhood ∧
    (neighborOffsets0 2 NeighborhoodType.IndirectNeighborhood).getD 2 [] =
      negVec ((neighborOffsets0 2 NeighborhoodType.IndirectNeighborhood).getD
        (neighborCount 2 NeighborhoodType.IndirectNeighborhood - 1 - 2) []) :=
  ⟨by decide, by decide,
   C4_reflection_symmetry 2 NeighborhoodType.IndirectNeighborhood 2 (by decide) (by decide)⟩

/-! ### C9: rebuilding the tables into the same output containers -/

theorem resizeWith_nil {α : Type} (n : Nat) (d : α) :
    resizeWith ([] : List α) n d = List.replicate n d := by
  unfold resizeWith
  simp

theorem resizeWith_self {α : Type} (l : List α) (n : Nat) (d : α) (h : l.length = n) :
    resizeWith l n d = l := by
  unfold resizeWith
  rw [List.take_of_length_le (Nat.le_of_eq h), h, Nat.sub_self]
  simp

theorem getD_replicate {α : Type} (n i : Nat) (a : α) :
    (List.replicate n a).getD i a = a := by
  by_cases h : i < n
  · rw [List.getD_eq_getElem _ _ (by simpa using h)]
    simp
  · exact getD_ge_length _ _ _ (by simpa using Nat.le_of_not_lt h)

/-- C9 counterexample: invoking `makeArrayNeighborhood` a second time with the
same output containers does not reproduce the single-invocation result — the
index-lookup table is appended to, not rebuilt (N = 1, direct neighborhood). -/
theorem C9_rebuild_counterexample :
    (makeArrayNeighborhood 1 NeighborhoodType.DirectNeighborhood
      (makeArrayNeighborhood 1 NeighborhoodType.DirectNeighborhood emptyTables)).indexLookupTable ≠
    (makeArrayNeighborhood 1 NeighborhoodType.DirectNeighborhood emptyTables).indexLookupTable := by
  decide

/-- C9 (amended): rebuilding twice from the same inputs leaves the offset,
existence, causal and anticausal tables bit-identical (they are cleared or
fully overwritten on each call), but the index-lookup table and the
flat-stride table of `makeArraySubNeighborhood` are appended to, so a second
invocation into the already-filled containers yields each per-code row
duplicated. -/
theorem C9_rebuild_amended (N : Nat) (nt : NeighborhoodType) (strides : Shape)
    (hN : 1 ≤ N) (hs : strides.length = N) :
    (makeArrayNeighborhood N nt (makeArrayNeighborhood N nt emptyTables)).offsetsTable =
      (makeArrayNeighborhood N nt emptyTables).offsetsTable ∧
    (makeArrayNeighborhood N nt (makeArrayNeighborhood N nt emptyTables)).existsTable =
      (makeArrayNeighborhood N nt emptyTables).existsTable ∧
    (makeArrayNeighborhood N nt (makeArrayNeighborhood N nt emptyTables)).causalTable =
      (makeArrayNeighborhood N nt emptyTables).causalTable ∧
    (makeArrayNeighborhood N nt (makeArrayNeighborhood N nt emptyTables)).anticausalTable =
      (makeArrayNeighborhood N nt emptyTables).anticausalTable ∧
    (makeArrayNeighborhood N nt emptyTables).indexLookupTable =
      (List.range (1 <<< (2*N))).map (fun k => neighborIndexLookup N nt k) ∧
    (makeArrayNeighborhood N nt (makeArrayNeighborhood N nt emptyTables)).indexLookupTable =
      (List.range (1 <<< (2*N))).map (fun k =>
        neighborIndexLookup N nt k ++ neighborIndexLookup N nt k) ∧
    makeArraySubNeighborhood (neighborOffsets0 N nt)
        ((List.range (1 <<< (2*N))).map (neighborExists N nt)) strides
        (makeArraySubNeighborhood (neighborOffsets0 N nt)
          ((List.range (1 <<< (2*N))).map (neighborExists N nt)) strides []) =
      (List.range (1 <<< (2*N))).map (fun k =>
        flatStrides (neighborOffsets0 N nt) (neighborExists N nt k) strides ++
        flatStrides (neighborOffsets0 N nt) (neighborExists N nt k) strides) := by
  have honce : (makeArrayNeighborhood N nt emptyTables).indexLookupTable =
      (List.range (1 <<< (2*N))).map (fun k => neighborIndexLookup N nt k) := by
    simp only [makeArrayNeighborhood, emptyTables]
    rw [List.map_eq_map_iff]
    intro k _
    rw [resizeWith_nil, getD_replicate]
    simp
  refine ⟨rfl, rfl, rfl, rfl, honce, ?_, ?_⟩
  · rw [show (makeArrayNeighborhood N nt (makeArrayNeighborhood N nt emptyTables)).indexLookupTable =
        (List.range (1 <<< (2*N))).map (fun k =>
          (resizeWith ((makeArrayNeighborhood N nt emptyTables).indexLookupTable)
            (1 <<< (2*N)) []).getD k [] ++ neighborIndexLookup N nt k) from rfl,
       honce, List.map_eq_map_iff]
    intro k hk
    have hk' := List.mem_range.mp hk
    rw [resizeWith_self _ _ _ (by simp), getD_map_range _ _ k [] hk']
  · unfold makeArraySubNeighborhood
    rw [hs, List.map_eq_map_iff]
    intro k hk
    have hk' := List.mem_range.mp hk
    rw [resizeWith_self _ _ _ (by simp), getD_map_range _ _ k [] hk']
    rw [resizeWith_nil, getD_replicate]
    rw [getD_map_range (neighborExists N nt) _ k [] hk']
    simp

/-- Witness for the amended C9 at N = 1, direct neighborhood, strides (1). -/
theorem C9_rebuild_amended_witness :
    1 ≤ 1 ∧ [(1:Int)].length = 1 ∧
    ((makeArrayNeighborhood 1 NeighborhoodType.DirectNeighborhood
        (makeArrayNeighborhood 1 NeighborhoodType.DirectNeighborhood emptyTables)).offsetsTable =
      (makeArrayNeighborhood 1 NeighborhoodType.DirectNeighborhood emptyTables).offsetsTable ∧
    (makeArrayNeighborhood 1 NeighborhoodType.DirectNeighborhood
        (makeArrayNeighborhood 1 NeighborhoodType.DirectNeighborhood emptyTables)).existsTable =
      (makeArrayNeighborhood 1 NeighborhoodType.DirectNeighborhood emptyTables).existsTable ∧
    (makeArrayNeighborhood 1 NeighborhoodType.DirectNeighborhood
        (makeArrayNeighborhood 1 NeighborhoodType.DirectNeighborhood emptyTables)).causalTable =
      (makeArrayNeighborhood 1 NeighborhoodType.DirectNeighborhood emptyTables).causalTable ∧
    (makeArrayNeighborhood 1 NeighborhoodType.DirectNeighborhood
        (makeArrayNeighborhood 1 NeighborhoodType.DirectNeighborhood emptyTables)).anticausalTable =
      (makeArrayNeighborhood 1 NeighborhoodType.DirectNeighborhood emptyTables).anticausalTable ∧
    (makeArrayNeighborhood 1 NeighborhoodType.DirectNeighborhood emptyTables).indexLookupTable =
      (List.range (1 <<< (2*1))).map
        (fun k => neighborIndexLookup 1 NeighborhoodType.DirectNeighborhood k) ∧
    (makeArrayNeighborhood 1 NeighborhoodType.DirectNeighborhood
        (makeArrayNeighborhood 1 NeighborhoodType.DirectNeighborhood emptyTables)).indexLookupTable =
      (List.range (1 <<< (2*1))).map (fun k =>
        neighborIndexLookup 1 NeighborhoodType.DirectNeighborhood k ++
        neighborIndexLookup 1 NeighborhoodType.DirectNeighborhood k) ∧
    makeArraySubNeighborhood (neighborOffsets0 1 NeighborhoodType.DirectNeighborhood)
        ((List.range (1 <<< (2*1))).map (neighborExists 1 NeighborhoodType.DirectNeighborhood))
        [(1:Int)]
        (makeArraySubNeighborhood (neighborOffsets0 1 NeighborhoodType.DirectNeighborhood)
          ((List.range (1 <<< (2*1))).map (neighborExists 1 NeighborhoodType.DirectNeighborhood))
          [(1:Int)] []) =
      (List.range (1 <<< (2*1))).map (fun k =>
        flatStrides (neighborOffsets0 1 NeighborhoodType.DirectNeighborhood)
          (neighborExists 1 NeighborhoodType.DirectNeighborhood k) [(1:Int)] ++
        flatStrides (neighborOffsets0 1 NeighborhoodType.DirectNeighborhood)
          (neighborExists 1 NeighborhoodType.DirectNeighborhood k) [(1:Int)])) :=
  ⟨by decide, by decide,
   C9_rebuild_amended 1 NeighborhoodType.DirectNeighborhood [1] (by decide) (by decide)⟩

/-! ### C3: stride ordering — balanced-ternary value of an offset -/

theorem strides3_succ (N : Nat) :
    strides3 (N+1) = 1 :: (strides3 N).map (fun x => (3:Int) * x) := by
  unfold strides3
  rw [List.range_succ_eq_map, List.map_cons, List.map_map, List.map_map]
  have hcomp : ((fun d => (3:Int)^d) ∘ Nat.succ) =
      ((fun x => (3:Int) * x) ∘ (fun d => (3:Int)^d)) := by
    funext d
    simp only [Function.comp]
    rw [pow_succ]
    ring
  rw [hcomp]
  norm_num

theorem dot_map_mul3 : ∀ (as bs : List Int),
    dot as (bs.map (fun x => (3:Int) * x)) = 3 * dot as bs := by
  intro as
  induction as with
  | nil => intro bs; simp [dot]
  | cons a as ih =>
      intro bs
      cases bs with
      | nil => simp [dot]
      | cons b bs =>
          simp only [List.map_cons, dot]
          rw [ih bs]
          ring

theorem dot_strides3_eq_tdot : ∀ (off : Shape) (N : Nat), off.length = N →
    dot off (strides3 N) = tdot off := by
  intro off
  induction off with
  | nil => intro N h; rfl
  | cons a as ih =>
      intro N h
      cases N with
      | zero => simp at h
      | succ M =>
          rw [strides3_succ M]
          simp only [dot, tdot]
          rw [dot_map_mul3, ih M (by simpa using h)]
          ring

theorem tdot_append : ∀ (xs ys : List Int),
    tdot (xs ++ ys) = tdot xs + 3^xs.length * tdot ys := by
  intro xs
  induction xs with
  | nil => intro ys; simp [tdot]
  | cons x xs ih =>
      intro ys
      show tdot (x :: (xs ++ ys)) = tdot (x :: xs) + 3^(x :: xs).length * tdot ys
      simp only [tdot, List.length_cons]
      rw [ih ys]
      ring

theorem tdot_take_one (l : List Int) : tdot (l.take 1) = l.getD 0 0 := by
  cases l <;> simp [tdot]

theorem tdot_take_succ (l : List Int) (m : Nat) (h : m < l.length) :
    tdot (l.take (m+1)) = tdot (l.take m) + 3^m * l.getD m 0 := by
  rw [List.take_succ, List.getElem?_eq_getElem h]
  show tdot (l.take m ++ [l[m]]) = _
  rw [tdot_append, List.length_take, Nat.min_eq_left (Nat.le_of_lt h),
      List.getD_eq_getElem l 0 h]
  simp [tdot]

theorem tdot_zeroVec : ∀ (N : Nat), tdot (zeroVec N) = 0 := by
  intro N
  induction N with
  | zero => rfl
  | succ M ih =>
      show tdot (List.replicate (M+1) 0) = 0
      rw [List.replicate_succ]
      simp only [tdot]
      rw [show List.replicate M (0:Int) = zeroVec M from rfl, ih]
      ring

theorem tdot_set_zeroVec : ∀ (j N : Nat) (v : Int), j < N →
    tdot ((zeroVec N).set j v) = v * 3^j := by
  intro j
  induction j with
  | zero =>
      intro N v h
      cases N with
      | zero => omega
      | succ M =>
          show tdot ((List.replicate (M+1) (0:Int)).set 0 v) = v * 3^0
          rw [List.replicate_succ]
          show tdot (v :: List.replicate M 0) = v * 3^0
          simp only [tdot]
          rw [show List.replicate M (0:Int) = zeroVec M from rfl, tdot_zeroVec]
          ring
  | succ n ih =>
      intro N v h
      cases N with
      | zero => omega
      | succ M =>
          show tdot ((List.replicate (M+1) (0:Int)).set (n+1) v) = v * 3^(n+1)
          rw [List.replicate_succ]
          show tdot ((0:Int) :: (List.replicate M 0).set n v) = v * 3^(n+1)
          simp only [tdot]
          rw [show List.replicate M (0:Int) = zeroVec M from rfl, ih M v (by omega)]
          ring

/-- Every direct-neighborhood entry is a signed unit vector of a dimension
at most the level. -/
theorem mem_directOffsets_shape : ∀ (N L : Nat) (off : Shape),
    off ∈ directOffsets N L →
    ∃ j v, off = (zeroVec N).set j v ∧ j ≤ L ∧ (v = -1 ∨ v = 1) := by
  intro N L
  induction L with
  | zero =>
      intro off h
      simp [directOffsets] at h
      rcases h with rfl | rfl
      · exact ⟨0, -1, rfl, by omega, Or.inl rfl⟩
      · exact ⟨0, 1, rfl, by omega, Or.inr rfl⟩
  | succ n ih =>
      intro off h
      simp only [directOffsets, List.mem_cons, List.mem_append,
        List.mem_singleton] at h
      rcases h with rfl | h | rfl | hfalse
      · exact ⟨n+1, -1, rfl, by omega, Or.inl rfl⟩
      · obtain ⟨j, v, rfl, hj, hv⟩ := ih off h
        exact ⟨j, v, rfl, by omega, hv⟩
      · exact ⟨n+1, 1, rfl, by omega, Or.inr rfl⟩
      · simp at hfalse

theorem mem_directOffsets_length (N L : Nat) (off : Shape)
    (h : off ∈ directOffsets N L) : off.length = N := by
  obtain ⟨j, v, rfl, _, _⟩ := mem_directOffsets_shape N L off h
  simp [zeroVec]

theorem direct_tdot_bound (N : Nat) : ∀ (L : Nat), L < N → ∀ off ∈ directOffsets N L,
    (-(3^L : Int) ≤ tdot off ∧ tdot off ≤ 3^L) ∧ tdot off ≠ 0 := by
  intro L hL off hmem
  obtain ⟨j, v, rfl, hj, hv⟩ := mem_directOffsets_shape N L off hmem
  rw [tdot_set_zeroVec j N v (by omega)]
  have hpow : (0:Int) < 3^j := by positivity
  have hmono : (3:Int)^j ≤ 3^L := pow_le_pow_right (by norm_num) hj
  rcases hv with rfl | rfl
  · constructor
    · constructor <;> nlinarith
    · nlinarith
  · constructor
    · constructor <;> nlinarith
    · nlinarith

theorem direct_tdot_sorted (N : Nat) : ∀ (L : Nat), L < N →
    ((directOffsets N L).map tdot).Pairwise (· < ·) := by
  intro L
  induction L with
  | zero =>
      intro hL
      simp only [directOffsets, List.map_cons, List.map_nil]
      rw [tdot_set_zeroVec 0 N (-1) hL, tdot_set_zeroVec 0 N 1 hL]
      refine List.Pairwise.cons ?_ (List.pairwise_singleton _ _)
      intro b hb
      simp at hb
      subst hb
      norm_num
  | succ n ih =>
      intro hL
      have hn : n < N := by omega
      simp only [directOffsets, List.map_cons, List.map_append, List.map_nil]
      rw [tdot_set_zeroVec (n+1) N (-1) hL, tdot_set_zeroVec (n+1) N 1 hL]
      have hpow : (0:Int) < 3^(n+1) := by positivity
      have hmono : (3:Int)^n < 3^(n+1) := by
        rw [pow_succ]
        nlinarith [pow_pos (show (0:Int) < 3 by norm_num) n]
      apply List.Pairwise.cons
      · intro b hb
        rw [List.mem_append] at hb
        rcases hb with hb | hb
        · rw [List.mem_map] at hb
          obtain ⟨off, hoff, rfl⟩ := hb
          have hbd := direct_tdot_bound N n hn off hoff
          nlinarith [hbd.1.1, hbd.1.2, hbd.2]
        · simp at hb
          subst hb
          nlinarith
      · rw [List.pairwise_append]
        refine ⟨ih hn, List.pairwise_singleton _ _, ?_⟩
        intro a ha b hb
        simp at hb
        subst hb
        rw [List.mem_map] at ha
        obtain ⟨off, hoff, rfl⟩ := ha
        have hbd := direct_tdot_bound N n hn off hoff
        nlinarith [hbd.1.1, hbd.1.2]

theorem directOffsets_halves (N : Nat) : ∀ (L : Nat), L < N →
    ∃ A B, directOffsets N L = A ++ B ∧ A.length = L+1 ∧ B.length = L+1 ∧
      (∀ a ∈ A, tdot a < 0) ∧ (∀ b ∈ B, 0 < tdot b) := by
  intro L
  induction L with
  | zero =>
      intro hL
      refine ⟨[(zeroVec N).set 0 (-1)], [(zeroVec N).set 0 1], rfl, rfl, rfl, ?_, ?_⟩
      · intro a ha
        simp at ha
        subst ha
        rw [tdot_set_zeroVec 0 N (-1) hL]
        norm_num
      · intro b hb
        simp at hb
        subst hb
        rw [tdot_set_zeroVec 0 N 1 hL]
        norm_num
  | succ n ih =>
      intro hL
      obtain ⟨A, B, hAB, hAl, hBl, hAneg, hBpos⟩ := ih (by omega)
      have hpow : (0:Int) < 3^(n+1) := by positivity
      refine ⟨(zeroVec N).set (n+1) (-1) :: A, B ++ [(zeroVec N).set (n+1) 1], ?_, ?_, ?_, ?_, ?_⟩
      · simp only [directOffsets, hAB, List.cons_append, List.append_assoc]
      · simp [hAl]
      · simp [hBl]
      · intro a ha
        rcases List.mem_cons.mp ha with rfl | ha
        · rw [tdot_set_zeroVec (n+1) N (-1) hL]
          nlinarith
        · exact hAneg a ha
      · intro b hb
        rcases List.mem_append.mp hb with hb | hb
        · exact hBpos b hb
        · simp at hb
          subst hb
          rw [tdot_set_zeroVec (n+1) N 1 hL]
          nlinarith

theorem indirect_tdot_bound : ∀ (L : Nat) (p : Shape) (c : Bool) (off : Shape),
    L < p.length → off ∈ indirectOffsets L p c →
    -(3^(L+1) : Int) < 2 * tdot (off.take (L+1)) ∧ 2 * tdot (off.take (L+1)) < 3^(L+1) := by
  intro L
  induction L with
  | zero =>
      intro p c off hp hmem
      have hex : ∃ v : Int, off = p.set 0 v ∧ (v = -1 ∨ v = 0 ∨ v = 1) := by
        cases c
        · simp [indirectOffsets] at hmem
          rcases hmem with rfl | rfl | rfl
          · exact ⟨-1, rfl, Or.inl rfl⟩
          · exact ⟨0, rfl, Or.inr (Or.inl rfl)⟩
          · exact ⟨1, rfl, Or.inr (Or.inr rfl)⟩
        · simp [indirectOffsets] at hmem
          rcases hmem with rfl | rfl
          · exact ⟨-1, rfl, Or.inl rfl⟩
          · exact ⟨1, rfl, Or.inr (Or.inr rfl)⟩
      obtain ⟨v, rfl, hv⟩ := hex
      rw [tdot_take_one, getD_set_self p 0 v hp]
      rcases hv with rfl | rfl | rfl <;> norm_num
  | succ n ih =>
      intro p c off hp hmem
      simp only [indirectOffsets, List.mem_append] at hmem
      have hpow : (0:Int) < 3^(n+1) := by positivity
      have h3 : (3:Int)^(n+1+1) = 3 * 3^(n+1) := by ring
      have hgen : ∀ (v : Int) (cc : Bool), off ∈ indirectOffsets n (p.set (n+1) v) cc →
          (v = -1 ∨ v = 0 ∨ v = 1) →
          -(3^(n+1+1) : Int) < 2 * tdot (off.take (n+1+1)) ∧
          2 * tdot (off.take (n+1+1)) < 3^(n+1+1) := by
        intro v cc hoff hv
        have hlen : off.length = p.length := by
          rw [mem_indirectOffsets_length n _ _ off hoff, List.length_set]
        have hb := ih (p.set (n+1) v) cc off (by rw [List.length_set]; omega) hoff
        have hstep : tdot (off.take (n+1+1)) = tdot (off.take (n+1)) + 3^(n+1) * v := by
          rw [tdot_take_succ off (n+1) (by omega)]
          rw [mem_indirectOffsets_getD_high n _ cc off hoff (n+1) (by omega),
              getD_set_self p (n+1) v hp]
        rw [hstep, h3]
        rcases hv with rfl | rfl | rfl <;> constructor <;> nlinarith [hb.1, hb.2]
      rcases hmem with h | h | h
      · exact hgen (-1) false h (Or.inl rfl)
      · exact hgen 0 c h (Or.inr (Or.inl rfl))
      · exact hgen 1 false h (Or.inr (Or.inr rfl))

theorem indirect_tdot_sorted : ∀ (L : Nat) (p : Shape) (c : Bool), L < p.length →
    ((indirectOffsets L p c).map (fun off => tdot (off.take (L+1)))).Pairwise (· < ·) := by
  intro L
  induction L with
  | zero =>
      intro p c hp
      have hneg : tdot ((p.set 0 (-1)).take 1) = -1 := by
        rw [tdot_take_one, getD_set_self p 0 _ hp]
      have hzero : tdot ((p.set 0 0).take 1) = 0 := by
        rw [tdot_take_one, getD_set_self p 0 _ hp]
      have hpos : tdot ((p.set 0 1).take 1) = 1 := by
        rw [tdot_take_one, getD_set_self p 0 _ hp]
      cases c
      · show (([p.set 0 (-1), p.set 0 0, p.set 0 1]).map
            (fun off => tdot (off.take 1))).Pairwise (· < ·)
        simp only [List.map_cons, List.map_nil, hneg, hzero, hpos]
        rw [List.pairwise_cons, List.pairwise_cons]
        refine ⟨?_, ?_, List.pairwise_singleton _ _⟩
        · intro b hb
          simp at hb
          rcases hb with rfl | rfl <;> norm_num
        · intro b hb
          simp at hb
          subst hb
          norm_num
      · show (([p.set 0 (-1), p.set 0 1]).map
            (fun off => tdot (off.take 1))).Pairwise (· < ·)
        simp only [List.map_cons, List.map_nil, hneg, hpos]
        rw [List.pairwise_cons]
        refine ⟨?_, List.pairwise_singleton _ _⟩
        intro b hb
        simp at hb
        subst hb
        norm_num
  | succ n ih =>
      intro p c hp
      have hpow : (0:Int) < 3^(n+1) := by positivity
      have hstepOf : ∀ (v : Int) (cc : Bool) (a : Shape),
          a ∈ indirectOffsets n (p.set (n+1) v) cc →
          tdot (a.take (n+1+1)) = tdot (a.take (n+1)) + 3^(n+1) * v := by
        intro v cc a ha
        have hlen : a.length = p.length := by
          rw [mem_indirectOffsets_length n _ _ a ha, List.length_set]
        rw [tdot_take_succ a (n+1) (by omega)]
        rw [mem_indirectOffsets_getD_high n _ cc a ha (n+1) (by omega),
            getD_set_self p (n+1) v hp]
      have hblock : ∀ (v : Int) (cc : Bool),
          ((indirectOffsets n (p.set (n+1) v) cc).map
            (fun off => tdot (off.take (n+1+1)))).Pairwise (· < ·) := by
        intro v cc
        have hsort := ih (p.set (n+1) v) cc (by rw [List.length_set]; omega)
        rw [List.pairwise_map] at hsort ⊢
        refine hsort.imp_of_mem ?_
        intro a b ha hb hr
        rw [hstepOf v cc a ha, hstepOf v cc b hb]
        linarith
      have hcross : ∀ (v1 v2 : Int) (c1 c2 : Bool), v1 < v2 →
          ∀ x ∈ (indirectOffsets n (p.set (n+1) v1) c1).map
              (fun off => tdot (off.take (n+1+1))),
          ∀ y ∈ (indirectOffsets n (p.set (n+1) v2) c2).map
              (fun off => tdot (off.take (n+1+1))),
          x < y := by
        intro v1 v2 c1 c2 hlt x hx y hy
        rw [List.mem_map] at hx hy
        obtain ⟨a, ha, rfl⟩ := hx
        obtain ⟨b, hb, rfl⟩ := hy
        have hba := indirect_tdot_bound n (p.set (n+1) v1) c1 a
          (by rw [List.length_set]; omega) ha
        have hbb := indirect_tdot_bound n (p.set (n+1) v2) c2 b
          (by rw [List.length_set]; omega) hb
        rw [hstepOf v1 c1 a ha, hstepOf v2 c2 b hb]
        have hv12 : v1 + 1 ≤ v2 := by omega
        have hPv : (3:Int)^(n+1) * (v1 + 1) ≤ 3^(n+1) * v2 :=
          mul_le_mul_of_nonneg_left hv12 (le_of_lt hpow)
        rw [mul_add, mul_one] at hPv
        linarith [hba.2, hbb.1]
      show ((indirectOffsets n (p.set (n+1) (-1)) false ++
          (indirectOffsets n (p.set (n+1) 0) c ++
           indirectOffsets n (p.set (n+1) 1) false)).map
            (fun off => tdot (off.take (n+1+1)))).Pairwise (· < ·)
      rw [List.map_append, List.map_append, List.pairwise_append]
      refine ⟨hblock (-1) false, ?_, ?_⟩
      · rw [List.pairwise_append]
        exact ⟨hblock 0 c, hblock 1 false, hcross 0 1 c false (by norm_num)⟩
      · intro x hx y hy
        rw [List.mem_append] at hy
        rcases hy with hy | hy
        · exact hcross (-1) 0 false c (by norm_num) x hx y hy
        · exact hcross (-1) 1 false false (by norm_num) x hx y hy

theorem getD_append_left {α : Type} (l₁ l₂ : List α) (i : Nat) (h : i < l₁.length) (d : α) :
    (l₁ ++ l₂).getD i d = l₁.getD i d := by
  rw [List.getD_eq_getElem _ d (by simp; omega), List.getD_eq_getElem _ d h]
  exact List.getElem_append_left h

theorem getD_append_right {α : Type} (l₁ l₂ : List α) (i : Nat) (h : l₁.length ≤ i) (d : α) :
    (l₁ ++ l₂).getD i d = l₂.getD (i - l₁.length) d := by
  by_cases h2 : i < l₁.length + l₂.length
  · rw [List.getD_eq_getElem _ d (by simp; omega), List.getD_eq_getElem _ d (by omega)]
    exact List.getElem_append_right h
  · rw [getD_ge_length _ _ _ (by simp; omega), getD_ge_length _ _ _ (by omega)]

theorem getD_mem {α : Type} (l : List α) (i : Nat) (h : i < l.length) (d : α) :
    l.getD i d ∈ l := by
  rw [List.getD_eq_getElem l d h]
  exact l.getElem_mem h

/-- The canonical offset list of either neighborhood is strictly sorted by
dot product with the natural strides. -/
theorem neighborOffsets0_dot_sorted (N : Nat) (nt : NeighborhoodType) (hN : 1 ≤ N) :
    ((neighborOffsets0 N nt).map (fun off => dot off (strides3 N))).Pairwise (· < ·) := by
  have hmap : (neighborOffsets0 N nt).map (fun off => dot off (strides3 N)) =
      (neighborOffsets0 N nt).map tdot := by
    rw [List.map_eq_map_iff]
    intro off hoff
    apply dot_strides3_eq_tdot
    cases nt with
    | DirectNeighborhood => exact mem_directOffsets_length N (N-1) off hoff
    | IndirectNeighborhood =>
        rw [mem_indirectOffsets_length (N-1) (zeroVec N) true off hoff]
        simp [zeroVec]
  rw [hmap]
  cases nt with
  | DirectNeighborhood => exact direct_tdot_sorted N (N-1) (by omega)
  | IndirectNeighborhood =>
      have h2 : (neighborOffsets0 N NeighborhoodType.IndirectNeighborhood).map tdot =
          (indirectOffsets (N-1) (zeroVec N) true).map
            (fun off => tdot (off.take (N-1+1))) := by
        show (indirectOffsets (N-1) (zeroVec N) true).map tdot = _
        rw [List.map_eq_map_iff]
        intro off hoff
        have hlen : off.length = N := by
          rw [mem_indirectOffsets_length (N-1) (zeroVec N) true off hoff]
          simp [zeroVec]
        rw [show N - 1 + 1 = N from by omega,
            List.take_of_length_le (by rw [hlen])]
      rw [h2]
      exact indirect_tdot_sorted (N-1) (zeroVec N) true (by simp [zeroVec]; omega)

/-- C3: for both neighborhood shapes the canonical offset list is sorted by
non-decreasing dot product with the natural strides (1, 3, ..., 3^(N-1)); for
the direct neighborhood the first count/2 = N entries have negative dot
product and the remaining N entries non-negative dot product. -/
theorem C3_stride_sorted_and_halves (N : Nat) (nt : NeighborhoodType) (hN : 1 ≤ N) :
    ((neighborOffsets0 N nt).map (fun off => dot off (strides3 N))).Pairwise (· ≤ ·) ∧
    (∀ l, l < N →
      dot ((neighborOffsets0 N NeighborhoodType.DirectNeighborhood).getD l [])
        (strides3 N) < 0) ∧
    (∀ l, N ≤ l → l < 2*N →
      0 ≤ dot ((neighborOffsets0 N NeighborhoodType.DirectNeighborhood).getD l [])
        (strides3 N)) := by
  obtain ⟨A, B, hAB, hAl, hBl, hAneg, hBpos⟩ := directOffsets_halves N (N-1) (by omega)
  have hA1 : A.length = N := by omega
  have hB1 : B.length = N := by omega
  refine ⟨(neighborOffsets0_dot_sorted N nt hN).imp (fun h => le_of_lt h), ?_, ?_⟩
  · intro l hl
    have hoff : (neighborOffsets0 N NeighborhoodType.DirectNeighborhood).getD l [] =
        A.getD l [] := by
      show (directOffsets N (N-1)).getD l [] = _
      rw [hAB, getD_append_left A B l (by omega) []]
    rw [hoff]
    have hmem : A.getD l [] ∈ A := getD_mem A l (by omega) []
    have hdot : dot (A.getD l []) (strides3 N) = tdot (A.getD l []) := by
      apply dot_strides3_eq_tdot
      apply mem_directOffsets_length N (N-1)
      rw [hAB]
      exact List.mem_append_left B hmem
    rw [hdot]
    exact hAneg _ hmem
  · intro l hlo hhi
    have hoff : (neighborOffsets0 N NeighborhoodType.DirectNeighborhood).getD l [] =
        B.getD (l - N) [] := by
      show (directOffsets N (N-1)).getD l [] = _
      rw [hAB, getD_append_right A B l (by omega) [], hA1]
    rw [hoff]
    have hmem : B.getD (l - N) [] ∈ B := getD_mem B (l - N) (by omega) []
    have hdot : dot (B.getD (l - N) []) (strides3 N) = tdot (B.getD (l - N) []) := by
      apply dot_strides3_eq_tdot
      apply mem_directOffsets_length N (N-1)
      rw [hAB]
      exact List.mem_append_right A hmem
    rw [hdot]
    exact le_of_lt (hBpos _ hmem)

/-- Witness for C3 at N = 2, indirect neighborhood. -/
theorem C3_stride_sorted_and_halves_witness :
    1 ≤ 2 ∧
    (((neighborOffsets0 2 NeighborhoodType.IndirectNeighborhood).map
        (fun off => dot off (strides3 2))).Pairwise (· ≤ ·) ∧
    (∀ l, l < 2 →
      dot ((neighborOffsets0 2 NeighborhoodType.DirectNeighborhood).getD l [])
        (strides3 2) < 0) ∧
    (∀ l, 2 ≤ l → l < 2*2 →
      0 ≤ dot ((neighborOffsets0 2 NeighborhoodType.DirectNeighborhood).getD l [])
        (strides3 2))) :=
  ⟨by decide, C3_stride_sorted_and_halves 2 NeighborhoodType.IndirectNeighborhood (by decide)⟩

end vigra
